import Mathlib

/-!
Shallow embedding of `feed_my_wled.py` (an audio → WLED UDP visualizer) and
verification of the specification's claims about it.

Conventions of the embedding:
* Python `bytes` objects are `List ℕ` whose entries are byte values `< 256`.
* Python floats (IEEE 754 doubles) are embedded as exact rationals `ℚ` where
  the computation is rational (means, the peak-level formula, the smoothing
  recurrence); at the concrete values appearing in the claims the double
  computations round to exactly the rational results, which is noted where it
  matters.  The FFT itself, which is transcendental, is embedded over `ℝ`/`ℂ`.
* `struct.pack` failures (`struct.error` on out-of-range integers, overflow on
  floats too large for a 32-bit float) are embedded as `Option`: `none` means
  the Python call raises.
-/

namespace FeedMyWled

/-- Truncation toward zero, the semantics of Python's `int(...)` applied to a
float (e.g. `int(-255.007) = -255`, `int(0.78) = 0`). -/
def qtrunc (q : ℚ) : ℤ := if q < 0 then -⌊-q⌋ else ⌊q⌋

/-- Round to nearest, ties to even — the rounding used when a double is
converted to a 32-bit float by `struct.pack('f', ...)`. -/
def rne (q : ℚ) : ℤ :=
  if q - ⌊q⌋ < 1/2 then ⌊q⌋
  else if 1/2 < q - ⌊q⌋ then ⌊q⌋ + 1
  else if ⌊q⌋ % 2 = 0 then ⌊q⌋ else ⌊q⌋ + 1

/-- Little-endian byte serialization of a 32-bit word. -/
def bytes4 (b : ℕ) : List ℕ := [b % 256, b / 2^8 % 256, b / 2^16 % 256, b / 2^24 % 256]

/-- IEEE 754 binary32 bit pattern (as a natural number) nearest to the rational
`q`, round to nearest ties to even, encoding sign, exponent and mantissa fields
exactly as `struct.pack('<f', ...)` does.  Magnitudes whose rounding reaches
`2^128` encode as infinity (`struct.pack` instead raises `OverflowError` there;
the encoder below guards that case with `f32max`). -/
def f32bits (q : ℚ) : ℕ :=
  if q = 0 then 0 else
  let s : ℕ := if q < 0 then 2^31 else 0
  let a : ℚ := |q|
  let e : ℤ := max (Int.log 2 a) (-126)
  let m : ℤ := rne (a * 2^(23 - e))
  if 127 < e ∨ (e = 127 ∧ m = 2^24) then s + 255 * 2^23
  else if m < 2^23 then s + m.toNat
  else s + ((e + 126) * 2^23 + m).toNat

/-- The four little-endian bytes of the 32-bit float nearest `q`, i.e. the bytes
contributed to the packet by one `f` field of `struct.pack('<...f...', ...)`. -/
def f32le (q : ℚ) : List ℕ := bytes4 (f32bits q)

/-- Smallest magnitude at which double→float32 conversion rounds to infinity
and `struct.pack('f', ...)` raises `OverflowError`: the halfway point above the
largest finite float32, `2^128 - 2^103` (written as a numeral so that kernel
reduction works). -/
def f32max : ℚ := 340282356779733661637539395458142568448

/-- One `B` (unsigned byte) field of `struct.pack`: Python 3's `struct` raises
`struct.error` when the integer is outside `[0, 255]` — it does NOT wrap. -/
def packB (v : ℤ) : Option ℕ := if 0 ≤ v ∧ v ≤ 255 then some v.toNat else none

/-- One `f` field of `struct.pack`: raises `OverflowError` when the double does
not fit a finite float32, otherwise contributes 4 little-endian bytes. -/
def packf32 (q : ℚ) : Option (List ℕ) := if f32max ≤ |q| then none else some (f32le q)

/-- A run of `B` fields of `struct.pack` (the 16 band bytes): every value must
be in `[0, 255]` or the whole call raises. -/
def packBs : List ℤ → Option (List ℕ)
  | [] => some []
  | v :: vs =>
      match packB v, packBs vs with
      | some b, some bs => some (b :: bs)
      | _, _ => none

/-- Embedding of `create_udp_packet` (feed_my_wled.py lines 83–111):
`struct.pack('<6s2B2fBB16B2B2f', b'00002', 0,0, raw, smoothed, peak, 0,
*fft_values, 0,0, magnitude_sum, peak_frequency)`.
The `6s` field pads the 5-byte literal `b'00002'` (ASCII 48,48,48,48,50) with
one zero byte.  The `peak_level = int(peak_level)` and `[int(v) for v in
fft_values]` conversions in the source are the identity on the integer inputs
modelled here.  `struct.pack` requires exactly 16 items for `16B`, hence the
length guard; `none` models a raised `struct.error`/`OverflowError`. -/
def create_udp_packet (fft_values : List ℤ) (raw_level smoothed_level : ℚ)
    (peak_level : ℤ) (fft_magnitude_sum fft_peak_frequency : ℚ) : Option (List ℕ) :=
  if fft_values.length ≠ 16 then none else
  match packf32 raw_level, packf32 smoothed_level, packB peak_level,
        packBs fft_values, packf32 fft_magnitude_sum, packf32 fft_peak_frequency with
  | some r, some s, some p, some bs, some m, some fr =>
      some ([48, 48, 48, 48, 50, 0] ++ [0, 0] ++ r ++ s ++ [p, 0] ++ bs ++ [0, 0] ++ m ++ fr)
  | _, _, _, _, _, _ => none

/-- One signed 16-bit little-endian sample from two bytes, the element decoding
performed by `np.frombuffer(audio_chunk, dtype=np.int16)`. -/
def int16_of (lo hi : ℕ) : ℤ :=
  let u : ℕ := lo % 256 + 256 * (hi % 256)
  if u < 32768 then (u : ℤ) else (u : ℤ) - 65536

/-- Decoding of a byte string into int16 samples, as
`np.frombuffer(audio_chunk, dtype=np.int16)` does.  (`frombuffer` raises when
the byte length is odd; `calculate_fft` guards that before using this.) -/
def decode_int16 : List ℕ → List ℤ
  | lo :: hi :: rest => int16_of lo hi :: decode_int16 rest
  | _ => []

/-- `np.abs` on an int16 value: two's-complement absolute value, which WRAPS at
the most negative value — `np.abs(np.int16(-32768)) = -32768`. -/
def np_abs16 (s : ℤ) : ℤ := if s = -32768 then -32768 else |s|

/-- `np.max` over a list of integers (the reduction raises on an empty array;
callers only use it on nonempty input, where this is the maximum element). -/
def npMaxZ : List ℤ → ℤ
  | [] => 0
  | h :: t => t.foldl max h

/-- `raw_level = np.mean(np.abs(audio_data))` (line 55): the mean of the
wrapped absolute values, exact as a rational. -/
def raw_level_of (samples : List ℤ) : ℚ :=
  ((samples.map np_abs16).sum : ℚ) / (samples.length : ℚ)

/-- `peak_level = int((np.max(np.abs(audio_data)) / 32767) * 255)` (line 56):
`int()` truncates toward zero; there is no rounding and no clamping in the
source.  The double computation agrees with this exact rational one for every
int16 maximum (the value `m*255/32767` is an integer only for `m ∈ {0, ±32767}`
where the doubles are exact, and is otherwise at distance `≥ 1/32767` from an
integer, far above the roundoff of the two double operations). -/
def peak_level_of (samples : List ℤ) : ℤ :=
  qtrunc (((npMaxZ (samples.map np_abs16) : ℚ) / 32767) * 255)

/-- `np.max` over a list of reals (used on the nonempty magnitude spectrum). -/
noncomputable def npMaxR : List ℝ → ℝ
  | [] => 0
  | h :: t => t.foldl max h

/-- `np.interp(x, (0, M), (0, 255))` for `0 ≤ x ≤ M`, following numpy's
`arr_interp` (numpy `compiled_base.c`): the search for `x` in `xp = [0, M]`
returns the LAST interval index when `x ≥ M`, and the result there is
`fp[-1] = 255` — in particular for the degenerate `M = 0`, `x = 0` the result
is `255`, not `0`; otherwise `x < M` and the result is the exact interpolation
`0 + (255 - 0)/(M - 0) * (x - 0)`. -/
noncomputable def np_interp0 (M x : ℝ) : ℝ := if M ≤ x then 255 else 255 * x / M

/-- Truncation toward zero on a real, the integer conversion inside a C-style
cast of a nonnegative float. -/
noncomputable def rtrunc (x : ℝ) : ℤ := if x < 0 then -⌊-x⌋ else ⌊x⌋

/-- `.astype(np.uint8)` on one float value: C cast, i.e. truncation toward zero
of the value reduced mod 2^8 (on x86 the int64 truncation is taken mod 256; all
values this program casts are already in `[0, 255]`, where this is plain
truncation). -/
noncomputable def cast_uint8 (x : ℝ) : ℤ := rtrunc x % 256

/-- `np.abs(np.fft.rfft(audio_data))` (line 59): the magnitudes of the
nonnegative-frequency half of the discrete Fourier transform,
`A_k = Σ_j a_j · exp(-2πi·j·k/n)` for `k = 0 .. n/2`. -/
noncomputable def rfftMag (xs : List ℤ) : List ℝ :=
  (List.range (xs.length / 2 + 1)).map fun (k : ℕ) =>
    Complex.abs (∑ j ∈ Finset.range xs.length,
      ((xs.getD j 0 : ℤ) : ℂ) *
        Complex.exp (-(2 * (Real.pi : ℂ) * Complex.I * (k : ℂ) * (j : ℂ)) / (xs.length : ℂ)))

/-- `fft_normalized = np.interp(fft_result, (0, np.max(fft_result)), (0, 255))`
(line 62). -/
noncomputable def fft_normalized_of (mags : List ℝ) : List ℝ :=
  mags.map (np_interp0 (npMaxR mags))

/-- `fft_values = fft_normalized[:16].astype(np.uint8)` (line 65). -/
noncomputable def fft_values_of (mags : List ℝ) : List ℤ :=
  ((fft_normalized_of mags).take 16).map cast_uint8

/-- `np.argmax` over the magnitude list: index of the FIRST occurrence of the
maximum. -/
noncomputable def npArgmax (l : List ℝ) : ℕ :=
  l.findIdx fun x => decide (x = npMaxR l)

/-- The tuple returned by a successful `calculate_fft` (line 75). -/
structure FFTResult where
  fft_values : List ℤ
  raw_level : ℚ
  peak_level : ℤ
  magnitude_sum : ℝ
  peak_frequency : ℚ

/-- Embedding of `calculate_fft` (feed_my_wled.py lines 43–80).  The `except`
branch makes any raising input return the failure sentinel, modelled as `none`:
`np.frombuffer` raises on an odd byte count, and on an empty array
`np.max(np.abs(audio_data))` raises (`np.mean` only warns); every other input
reaches the final `return`.  `peak_frequency = freq_index * (sample_rate /
len(audio_data))` is rational because the index and the lengths are integers. -/
noncomputable def calculate_fft (audio_chunk : List ℕ) (sample_rate : ℕ) : Option FFTResult :=
  if audio_chunk.length = 0 ∨ audio_chunk.length % 2 ≠ 0 then none
  else
    let audio_data := decode_int16 audio_chunk
    let mags := rfftMag audio_data
    some { fft_values := fft_values_of mags
           raw_level := raw_level_of audio_data
           peak_level := peak_level_of audio_data
           magnitude_sum := mags.sum
           peak_frequency := (npArgmax mags : ℚ) * ((sample_rate : ℚ) / (audio_data.length : ℚ)) }

/-- MODELLED FROM THE SPEC (for claim C6 only): the spec's formula
"`peak_level` = `round(max(abs(samples)) / 32767 * 255)`, clamped to an
unsigned 8-bit range", with true absolute values and clamping, to be compared
against the source's `peak_level_of`. -/
def peak_level_claimed (samples : List ℤ) : ℤ :=
  min 255 (max 0 (round (((npMaxZ (samples.map (fun s => |s|)) : ℚ) / 32767) * 255)))

/-- `collections.deque(maxlen = cap).append`: the new element goes to the right
end; when the deque is full the LEFTMOST (oldest) element is dropped. -/
def deque_append (cap : ℕ) (buf : List (List ℕ)) (b : List ℕ) : List (List ℕ) :=
  (buf ++ [b]).drop (buf.length + 1 - cap)

/-- The per-cycle read handling (lines 135–137): `audio_data = stdin.read(chunk_size)`
followed by `if audio_data: ring_buffer.append(audio_data)` — Python byte-string
TRUTHINESS pushes every nonempty read, short reads included; only an empty read
pushes nothing. -/
def read_push (cap : ℕ) (buf : List (List ℕ)) (data : List ℕ) : List (List ℕ) :=
  if data ≠ [] then deque_append cap buf data else buf

/-- `combined_data = b"".join(ring_buffer)` (line 140): concatenation in deque
order, oldest block first. -/
def combined (buf : List (List ℕ)) : List ℕ := buf.flatten

/-- The unicast send loop (lines 163–165): `for wled_ip in WLED_IP_ADDRESSES:
udp_socket.sendto(udp_packet, (wled_ip, WLED_UDP_PORT))`.  There is no
`try/except` around `sendto`, so a raising send aborts the loop: the result is
the list of addresses actually sent to, paired with `false` when an exception
escaped (killing the stream loop) and `true` when all sends returned. -/
def send_unicast (addrs : List ℕ) (send_ok : ℕ → Bool) : List ℕ × Bool :=
  match addrs with
  | [] => ([], true)
  | a :: rest =>
      if send_ok a then
        ((send_unicast rest send_ok).1.cons a, (send_unicast rest send_ok).2)
      else ([], false)

/-- One smoothing update (line 152):
`smoothed_level = (0.8 * previous_smoothed_level) + (0.2 * raw_level)`.
The literals 0.8 and 0.2 are exact here; at the raw levels named by the claims
the double computation produces exactly the same values (each intermediate
rounds to the decimal literal). -/
def smooth_step (prev raw : ℚ) : ℚ := 0.8 * prev + 0.2 * raw

/-- The smoothed-level sequence generated from `prev` by a list of raw levels,
one update per element. -/
def smooth_trace (prev : ℚ) : List ℚ → List ℚ
  | [] => []
  | r :: rs => smooth_step prev r :: smooth_trace (smooth_step prev r) rs

/-- Decidable success test of `calculate_fft` on a chunk (nonempty and of even
length — exactly when the embedded `calculate_fft` returns `some`). -/
def fft_ok (chunk : List ℕ) : Bool := chunk.length ≠ 0 && chunk.length % 2 = 0

/-- The raw level `calculate_fft` reports for a chunk (line 55 composed with the
decode of line 52). -/
def chunk_raw_level (chunk : List ℕ) : ℚ := raw_level_of (decode_int16 chunk)

/-- The smoothed levels emitted by the stream loop (lines 133–153) over a list
of reads, starting from smoothing state `prev` and ring buffer `buf`: each
cycle reads, pushes nonempty data, recombines, analyzes the first `chunk` bytes
of the combination, and on success performs exactly one smoothing update whose
result is emitted; on analysis failure the cycle is skipped with the smoothing
state untouched. -/
def run_loop (cap chunk : ℕ) (prev : ℚ) (buf : List (List ℕ)) : List (List ℕ) → List ℚ
  | [] => []
  | d :: ds =>
      let buf' := read_push cap buf d
      let c := (combined buf').take chunk
      if fft_ok c then
        smooth_step prev (chunk_raw_level c) ::
          run_loop cap chunk (smooth_step prev (chunk_raw_level c)) buf' ds
      else run_loop cap chunk prev buf' ds

/-- The raw levels of the successful analysis cycles of the same loop run. -/
def loop_raws (cap chunk : ℕ) (buf : List (List ℕ)) : List (List ℕ) → List ℚ
  | [] => []
  | d :: ds =>
      let buf' := read_push cap buf d
      let c := (combined buf').take chunk
      if fft_ok c then chunk_raw_level c :: loop_raws cap chunk buf' ds
      else loop_raws cap chunk buf' ds

end FeedMyWled

namespace FeedMyWled

/-! ### Helper lemmas: dispatcher -/

theorem send_unicast_eq (addrs : List ℕ) (send_ok : ℕ → Bool) :
    send_unicast addrs send_ok = (addrs.takeWhile send_ok, addrs.all send_ok) := by
  induction addrs with
  | nil => rfl
  | cons a rest ih =>
      by_cases h : send_ok a
      · simp [send_unicast, h, ih, List.takeWhile, List.all]
      · simp [send_unicast, h, List.takeWhile, List.all]

end FeedMyWled

namespace FeedMyWled

/-! ### Helper lemmas: ring buffer -/

theorem deque_append_foldl (cap : ℕ) (bs : List (List ℕ)) :
    ∀ buf : List (List ℕ), buf.length ≤ cap →
      List.foldl (deque_append cap) buf bs =
        (buf ++ bs).drop (buf.length + bs.length - cap) := by
  induction bs with
  | nil =>
      intro buf h
      have h0 : buf.length + ([] : List (List ℕ)).length - cap = 0 := by
        simp only [List.length_nil]; omega
      rw [List.foldl_nil, List.append_nil, h0, List.drop_zero]
  | cons b bs ih =>
      intro buf h
      have hk : buf.length + 1 - cap ≤ (buf ++ [b]).length := by simp
      have hlen' : (deque_append cap buf b).length ≤ cap := by
        simp [deque_append]; omega
      have hlen2 : (deque_append cap buf b).length = buf.length + 1 - (buf.length + 1 - cap) := by
        simp [deque_append]
      rw [List.foldl_cons, ih _ hlen']
      have hd : deque_append cap buf b ++ bs = ((buf ++ [b]) ++ bs).drop (buf.length + 1 - cap) :=
        (List.drop_append_of_le_length hk).symm
      rw [hd, List.drop_drop, hlen2, List.append_assoc, List.singleton_append]
      congr 1
      simp only [List.length_cons]
      omega

end FeedMyWled

namespace FeedMyWled

theorem deque_push_overflow (cap : ℕ) (buf bs : List (List ℕ))
    (hbuf : buf.length ≤ cap) (hbs : bs.length = cap + 1) :
    List.foldl (deque_append cap) buf bs = bs.drop 1 := by
  rw [deque_append_foldl cap bs buf hbuf,
    show buf.length + bs.length - cap = buf.length + 1 by omega,
    ← List.drop_drop, List.drop_left]

theorem combined_take_head (chunk : ℕ) (b : List ℕ) (rest : List (List ℕ))
    (hb : b.length = chunk) :
    (combined (b :: rest)).take chunk = b := by
  rw [combined, List.flatten_cons, ← hb, List.take_left]

/-! ### Helper lemmas: smoothing -/

theorem smooth_trace_length (prev : ℚ) (rs : List ℚ) :
    (smooth_trace prev rs).length = rs.length := by
  induction rs generalizing prev with
  | nil => rfl
  | cons r rs ih => simp [smooth_trace, ih]

theorem smooth_trace_getD (rs : List ℚ) : ∀ (prev : ℚ) (i : ℕ), i < rs.length →
    (smooth_trace prev rs).getD i 0 =
      smooth_step (if i = 0 then prev else (smooth_trace prev rs).getD (i - 1) 0)
        (rs.getD i 0) := by
  induction rs with
  | nil => intro prev i h; simp at h
  | cons r rs ih =>
      intro prev i h
      match i with
      | 0 => simp [smooth_trace]
      | (j+1) =>
          have hj : j < rs.length := by simpa using h
          have hh := ih (smooth_step prev r) j hj
          simp only [smooth_trace, List.getD_cons_succ, Nat.add_sub_cancel,
            if_neg (Nat.succ_ne_zero j)]
          rw [hh]
          congr 1
          cases j with
          | zero => simp
          | succ k => simp

theorem run_loop_eq_smooth_trace (cap chunk : ℕ) (ds : List (List ℕ)) :
    ∀ (prev : ℚ) (buf : List (List ℕ)),
      run_loop cap chunk prev buf ds = smooth_trace prev (loop_raws cap chunk buf ds) := by
  induction ds with
  | nil => intro prev buf; rfl
  | cons d ds ih =>
      intro prev buf
      by_cases h : fft_ok ((combined (read_push cap buf d)).take chunk)
      · simp only [run_loop, loop_raws, h, if_true, smooth_trace, ih]
      · simp only [run_loop, loop_raws, h, if_false, ih, Bool.false_eq_true]

theorem smooth_literal : smooth_trace 0 [100, 0, 0] = [20, 16, 12.8] := by
  norm_num [smooth_trace, smooth_step]

end FeedMyWled

namespace FeedMyWled

/-! ### Helper lemmas: packet encoder -/

theorem f32le_length (q : ℚ) : (f32le q).length = 4 := rfl

theorem packBs_eq_map (vs : List ℤ) (h : ∀ v ∈ vs, 0 ≤ v ∧ v ≤ 255) :
    packBs vs = some (vs.map Int.toNat) := by
  induction vs with
  | nil => rfl
  | cons v vs ih =>
      have hv := h v (List.mem_cons_self v vs)
      have ht := ih fun x hx => h x (List.mem_cons_of_mem v hx)
      simp [packBs, packB, hv, ht]

theorem packBs_none (vs : List ℤ) (h : ∃ v ∈ vs, ¬(0 ≤ v ∧ v ≤ 255)) :
    packBs vs = none := by
  induction vs with
  | nil => simp at h
  | cons v vs ih =>
      by_cases hv : 0 ≤ v ∧ v ≤ 255
      · have ht : ∃ x ∈ vs, ¬(0 ≤ x ∧ x ≤ 255) := by
          rcases h with ⟨x, hx, hxp⟩
          rcases List.mem_cons.mp hx with rfl | hx'
          · exact absurd hv hxp
          · exact ⟨x, hx', hxp⟩
        simp [packBs, packB, hv, ih ht]
      · simp [packBs, packB, hv]

theorem packBs_length (vs : List ℤ) (bs : List ℕ) (h : packBs vs = some bs) :
    bs.length = vs.length := by
  induction vs generalizing bs with
  | nil => cases h; rfl
  | cons v vs ih =>
      rw [packBs] at h
      cases hv : packB v <;> rw [hv] at h
      · exact absurd h (by simp)
      · cases ht : packBs vs <;> rw [ht] at h
        · exact absurd h (by simp)
        · cases h
          simp [ih _ ht]

theorem create_udp_packet_eq_some (bands : List ℤ) (raw s : ℚ) (pk : ℤ) (m fr : ℚ)
    (hlen : bands.length = 16) (hb : ∀ v ∈ bands, 0 ≤ v ∧ v ≤ 255)
    (hpk : 0 ≤ pk ∧ pk ≤ 255)
    (h1 : |raw| < f32max) (h2 : |s| < f32max) (h3 : |m| < f32max) (h4 : |fr| < f32max) :
    create_udp_packet bands raw s pk m fr =
      some ([48, 48, 48, 48, 50, 0] ++ [0, 0] ++ f32le raw ++ f32le s ++ [pk.toNat, 0] ++
        bands.map Int.toNat ++ [0, 0] ++ f32le m ++ f32le fr) := by
  rw [create_udp_packet, if_neg (by simp [hlen])]
  rw [show packf32 raw = some (f32le raw) from if_neg (not_le.mpr h1),
    show packf32 s = some (f32le s) from if_neg (not_le.mpr h2),
    show packB pk = some pk.toNat from if_pos hpk,
    packBs_eq_map bands hb,
    show packf32 m = some (f32le m) from if_neg (not_le.mpr h3),
    show packf32 fr = some (f32le fr) from if_neg (not_le.mpr h4)]

theorem create_udp_packet_none_of_band (bands : List ℤ) (raw s : ℚ) (pk : ℤ) (m fr : ℚ)
    (h : ∃ v ∈ bands, ¬(0 ≤ v ∧ v ≤ 255)) :
    create_udp_packet bands raw s pk m fr = none := by
  rw [create_udp_packet]
  split
  · rfl
  · rw [packBs_none bands h]
    cases packf32 raw <;> cases packf32 s <;> cases packB pk <;>
      cases packf32 m <;> cases packf32 fr <;> rfl

theorem create_udp_packet_none_of_peak (bands : List ℤ) (raw s : ℚ) (pk : ℤ) (m fr : ℚ)
    (h : ¬(0 ≤ pk ∧ pk ≤ 255)) :
    create_udp_packet bands raw s pk m fr = none := by
  rw [create_udp_packet]
  split
  · rfl
  · rw [show packB pk = none from if_neg h]
    cases packf32 raw <;> cases packf32 s <;> cases packBs bands <;>
      cases packf32 m <;> cases packf32 fr <;> rfl

theorem create_udp_packet_isSome_iff (bands : List ℤ) (raw s : ℚ) (pk : ℤ) (m fr : ℚ)
    (hlen : bands.length = 16)
    (h1 : |raw| < f32max) (h2 : |s| < f32max) (h3 : |m| < f32max) (h4 : |fr| < f32max) :
    (create_udp_packet bands raw s pk m fr).isSome = true ↔
      ((∀ v ∈ bands, 0 ≤ v ∧ v ≤ 255) ∧ (0 ≤ pk ∧ pk ≤ 255)) := by
  by_cases hA : ∀ v ∈ bands, 0 ≤ v ∧ v ≤ 255
  · by_cases hB : 0 ≤ pk ∧ pk ≤ 255
    · rw [create_udp_packet_eq_some bands raw s pk m fr hlen hA hB h1 h2 h3 h4]
      exact iff_of_true rfl ⟨hA, hB⟩
    · rw [create_udp_packet_none_of_peak bands raw s pk m fr hB]
      exact iff_of_false (by simp) fun hc => hB hc.2
  · have hex : ∃ v ∈ bands, ¬(0 ≤ v ∧ v ≤ 255) := by
      by_contra hno
      push_neg at hno
      exact hA fun v hv => hno v hv
    rw [create_udp_packet_none_of_band bands raw s pk m fr hex]
    exact iff_of_false (by simp) fun hc => hA hc.1

theorem create_udp_packet_length (bands : List ℤ) (raw s : ℚ) (pk : ℤ) (m fr : ℚ)
    (pkt : List ℕ) (h : create_udp_packet bands raw s pk m fr = some pkt) :
    pkt.length = 44 := by
  rw [create_udp_packet] at h
  split at h
  · exact absurd h (by simp)
  · rename_i hlen
    have hlen16 : bands.length = 16 := by simpa using hlen
    cases hraw : packf32 raw <;> rw [hraw] at h
    · exact absurd h (by simp)
    cases hs : packf32 s <;> rw [hs] at h
    · exact absurd h (by simp)
    cases hpk : packB pk <;> rw [hpk] at h
    · exact absurd h (by simp)
    cases hbs : packBs bands <;> rw [hbs] at h
    · exact absurd h (by simp)
    cases hm : packf32 m <;> rw [hm] at h
    · exact absurd h (by simp)
    cases hfr : packf32 fr <;> rw [hfr] at h
    · exact absurd h (by simp)
    rename_i r sv p bs mv fv
    have hr4 : r.length = 4 := by
      rw [packf32] at hraw; split at hraw
      · exact absurd hraw (by simp)
      · cases hraw; exact f32le_length raw
    have hs4 : sv.length = 4 := by
      rw [packf32] at hs; split at hs
      · exact absurd hs (by simp)
      · cases hs; exact f32le_length s
    have hm4 : mv.length = 4 := by
      rw [packf32] at hm; split at hm
      · exact absurd hm (by simp)
      · cases hm; exact f32le_length m
    have hf4 : fv.length = 4 := by
      rw [packf32] at hfr; split at hfr
      · exact absurd hfr (by simp)
      · cases hfr; exact f32le_length fr
    have hbs16 : bs.length = 16 := by rw [packBs_length bands bs hbs, hlen16]
    cases h
    simp [hr4, hs4, hm4, hf4, hbs16]

end FeedMyWled

namespace FeedMyWled

/-! ### Helper lemmas: list maxima -/

theorem foldl_max_le {α : Type} [LinearOrder α] (t : List α) :
    ∀ a b : α, a ≤ b → (∀ x ∈ t, x ≤ b) → t.foldl max a ≤ b := by
  induction t with
  | nil => intro a b ha _; simpa using ha
  | cons x t ih =>
      intro a b ha hx
      exact ih _ _ (max_le ha (hx x (List.mem_cons_self x t)))
        fun y hy => hx y (List.mem_cons_of_mem x hy)

theorem le_foldl_max {α : Type} [LinearOrder α] (t : List α) :
    ∀ a : α, a ≤ t.foldl max a := by
  induction t with
  | nil => intro a; simp
  | cons x t ih => intro a; exact le_trans (le_max_left a x) (ih (max a x))

theorem mem_le_foldl_max {α : Type} [LinearOrder α] (t : List α) :
    ∀ (a x : α), x ∈ t → x ≤ t.foldl max a := by
  induction t with
  | nil => intro a x hx; simp at hx
  | cons y t ih =>
      intro a x hx
      rcases List.mem_cons.mp hx with rfl | h
      · exact le_trans (le_max_right a x) (le_foldl_max t _)
      · exact ih _ x h

theorem foldl_max_mem {α : Type} [LinearOrder α] (t : List α) :
    ∀ a : α, t.foldl max a ∈ a :: t := by
  induction t with
  | nil => intro a; simp
  | cons y t ih =>
      intro a
      rcases List.mem_cons.mp (ih (max a y)) with h | h
      · rcases max_choice a y with hm | hm <;> rw [List.foldl_cons, h, hm] <;> simp
      · simp [List.foldl_cons, List.mem_cons_of_mem, h]

theorem foldl_max_all_eq {α : Type} [LinearOrder α] (t : List α) :
    ∀ a : α, (∀ x ∈ t, x = a) → t.foldl max a = a := by
  induction t with
  | nil => intro a _; rfl
  | cons y t ih =>
      intro a h
      have hy : y = a := h y (List.mem_cons_self y t)
      rw [List.foldl_cons, hy, max_self]
      exact ih a fun x hx => h x (List.mem_cons_of_mem y hx)

theorem le_npMaxZ (l : List ℤ) (x : ℤ) (hx : x ∈ l) : x ≤ npMaxZ l := by
  cases l with
  | nil => simp at hx
  | cons h t =>
      rcases List.mem_cons.mp hx with rfl | hm
      · exact le_foldl_max t x
      · exact mem_le_foldl_max t h x hm

theorem npMaxZ_le (l : List ℤ) (b : ℤ) (h : ∀ x ∈ l, x ≤ b) (hne : l ≠ []) :
    npMaxZ l ≤ b := by
  cases l with
  | nil => exact absurd rfl hne
  | cons x t =>
      exact foldl_max_le t x b (h x (List.mem_cons_self x t))
        fun y hy => h y (List.mem_cons_of_mem x hy)

theorem le_npMaxR (l : List ℝ) (x : ℝ) (hx : x ∈ l) : x ≤ npMaxR l := by
  cases l with
  | nil => simp at hx
  | cons h t =>
      rcases List.mem_cons.mp hx with rfl | hm
      · exact le_foldl_max t x
      · exact mem_le_foldl_max t h x hm

theorem npMaxR_mem (l : List ℝ) (hne : l ≠ []) : npMaxR l ∈ l := by
  cases l with
  | nil => exact absurd rfl hne
  | cons h t => exact foldl_max_mem t h

end FeedMyWled

namespace FeedMyWled

/-! ### Helper lemmas: sample decoding and peak level -/

theorem decode_int16_length : ∀ chunk : List ℕ,
    (decode_int16 chunk).length = chunk.length / 2
  | [] => rfl
  | [_] => by simp [decode_int16]
  | lo :: hi :: rest => by
      rw [decode_int16, List.length_cons, decode_int16_length rest]
      simp only [List.length_cons]
      omega

theorem int16_of_range (lo hi : ℕ) : -32768 ≤ int16_of lo hi ∧ int16_of lo hi ≤ 32767 := by
  rw [int16_of]
  have h1 : lo % 256 < 256 := Nat.mod_lt _ (by norm_num)
  have h2 : hi % 256 < 256 := Nat.mod_lt _ (by norm_num)
  split <;> constructor <;> push_cast <;> omega

theorem decode_int16_range : ∀ chunk : List ℕ,
    ∀ s ∈ decode_int16 chunk, -32768 ≤ s ∧ s ≤ 32767
  | [] => by intro s hs; simp [decode_int16] at hs
  | [x] => by intro s hs; simp [decode_int16] at hs
  | lo :: hi :: rest => by
      intro s hs
      rw [decode_int16] at hs
      rcases List.mem_cons.mp hs with rfl | h
      · exact int16_of_range lo hi
      · exact decode_int16_range rest s h

theorem np_abs16_le (s : ℤ) (h1 : -32768 ≤ s) (h2 : s ≤ 32767) : np_abs16 s ≤ 32767 := by
  rw [np_abs16]
  split
  · omega
  · rename_i hne
    rw [abs_le]
    omega

theorem np_abs16_nonneg (s : ℤ) (hne : s ≠ -32768) : 0 ≤ np_abs16 s := by
  rw [np_abs16, if_neg hne]
  exact abs_nonneg s

theorem peak_level_of_range (samples : List ℤ) (hne : samples ≠ [])
    (hr : ∀ s ∈ samples, -32768 ≤ s ∧ s ≤ 32767)
    (hex : ∃ s ∈ samples, s ≠ -32768) :
    0 ≤ peak_level_of samples ∧ peak_level_of samples ≤ 255 := by
  rcases hex with ⟨s0, hs0, hs0ne⟩
  have hM0 : 0 ≤ npMaxZ (samples.map np_abs16) := by
    refine le_trans (np_abs16_nonneg s0 hs0ne) (le_npMaxZ _ _ ?_)
    exact List.mem_map_of_mem np_abs16 hs0
  have hM1 : npMaxZ (samples.map np_abs16) ≤ 32767 := by
    refine npMaxZ_le _ _ ?_ (by simpa using hne)
    intro x hx
    rcases List.mem_map.mp hx with ⟨s, hs, rfl⟩
    exact np_abs16_le s (hr s hs).1 (hr s hs).2
  set M := npMaxZ (samples.map np_abs16) with hMdef
  have hq0 : (0:ℚ) ≤ (M : ℚ) / 32767 * 255 := by positivity
  have hq1 : (M : ℚ) / 32767 * 255 ≤ 255 := by
    rw [div_mul_eq_mul_div, div_le_iff₀ (by norm_num)]
    have : (M:ℚ) ≤ 32767 := by exact_mod_cast hM1
    nlinarith
  rw [peak_level_of, ← hMdef, qtrunc, if_neg (not_lt.mpr hq0)]
  constructor
  · exact Int.floor_nonneg.mpr hq0
  · have hle : (↑⌊(M : ℚ) / 32767 * 255⌋ : ℚ) ≤ 255 := le_trans (Int.floor_le _) hq1
    exact_mod_cast hle

theorem peak_level_of_all_min (samples : List ℤ) (hne : samples ≠ [])
    (h : ∀ s ∈ samples, s = -32768) :
    peak_level_of samples = -255 := by
  have hM : npMaxZ (samples.map np_abs16) = -32768 := by
    rcases samples with _ | ⟨s, t⟩
    · exact absurd rfl hne
    · have hs : s = -32768 := h s (List.mem_cons_self s t)
      have habs : np_abs16 s = -32768 := by rw [hs, np_abs16, if_pos rfl]
      rw [List.map_cons, npMaxZ, habs]
      refine foldl_max_all_eq _ _ ?_
      intro x hx
      rcases List.mem_map.mp hx with ⟨y, hy, rfl⟩
      rw [h y (List.mem_cons_of_mem s hy), np_abs16, if_pos rfl]
  rw [peak_level_of, hM]
  have hval : (((-32768 : ℤ) : ℚ)) / 32767 * 255 = -(8355840 / 32767) := by norm_num
  rw [hval, qtrunc, if_pos (by norm_num), neg_neg,
    show ⌊(8355840 / 32767 : ℚ)⌋ = 255 by rw [Int.floor_eq_iff]; norm_num]

end FeedMyWled

namespace FeedMyWled

/-! ### Helper lemmas: spectrum, normalization, bands -/

theorem rfftMag_length (xs : List ℤ) : (rfftMag xs).length = xs.length / 2 + 1 := by
  simp only [rfftMag, List.length_map, List.length_range]

theorem rfftMag_nonneg (xs : List ℤ) : ∀ x ∈ rfftMag xs, 0 ≤ x := by
  intro x hx
  rw [rfftMag] at hx
  rcases List.mem_map.mp hx with ⟨k, _, rfl⟩
  exact AbsoluteValue.nonneg Complex.abs _

theorem getD_replicate_zero (n j : ℕ) : (List.replicate n (0:ℤ)).getD j 0 = 0 := by
  induction n generalizing j with
  | zero => rfl
  | succ m ih =>
      cases j with
      | zero => rfl
      | succ i => rw [List.replicate_succ, List.getD_cons_succ, ih i]

theorem rfftMag_zero (n : ℕ) :
    rfftMag (List.replicate n (0:ℤ)) = List.replicate (n / 2 + 1) 0 := by
  apply List.eq_replicate_iff.mpr
  constructor
  · rw [rfftMag_length, List.length_replicate]
  · intro b hb
    rw [rfftMag] at hb
    rcases List.mem_map.mp hb with ⟨k, _, rfl⟩
    have hz : ∀ j ∈ Finset.range (List.replicate n (0:ℤ)).length,
        (((List.replicate n (0:ℤ)).getD j 0 : ℤ) : ℂ) *
          Complex.exp (-(2 * (Real.pi : ℂ) * Complex.I * (k : ℂ) * (j : ℂ)) /
            ((List.replicate n (0:ℤ)).length : ℂ)) = 0 := by
      intro j _
      rw [getD_replicate_zero n j]
      simp
    rw [Finset.sum_congr rfl hz, Finset.sum_const_zero]
    simp

theorem np_interp0_mem (M x : ℝ) (hx0 : 0 ≤ x) (_hxM : x ≤ M) :
    0 ≤ np_interp0 M x ∧ np_interp0 M x ≤ 255 := by
  rw [np_interp0]
  split
  · norm_num
  · rename_i h
    have hM : 0 < M := lt_of_le_of_lt hx0 (not_le.mp h)
    constructor
    · positivity
    · rw [div_le_iff₀ hM]
      nlinarith [not_le.mp h]

theorem fft_normalized_mem (mags : List ℝ) (hpos : ∀ x ∈ mags, 0 ≤ x) :
    ∀ y ∈ fft_normalized_of mags, 0 ≤ y ∧ y ≤ 255 := by
  intro y hy
  rw [fft_normalized_of] at hy
  rcases List.mem_map.mp hy with ⟨x, hx, rfl⟩
  exact np_interp0_mem _ x (hpos x hx) (le_npMaxR mags x hx)

theorem cast_uint8_of_mem (y : ℝ) (h0 : 0 ≤ y) (h255 : y ≤ 255) :
    cast_uint8 y = ⌊y⌋ ∧ 0 ≤ cast_uint8 y ∧ cast_uint8 y ≤ 255 := by
  have hfl0 : 0 ≤ ⌊y⌋ := Int.floor_nonneg.mpr h0
  have hfl255 : ⌊y⌋ ≤ 255 := by
    have hle : (↑⌊y⌋ : ℝ) ≤ 255 := le_trans (Int.floor_le y) h255
    exact_mod_cast hle
  have ht : rtrunc y = ⌊y⌋ := by rw [rtrunc, if_neg (not_lt.mpr h0)]
  have hmod : ⌊y⌋ % 256 = ⌊y⌋ := Int.emod_eq_of_lt hfl0 (by omega)
  rw [cast_uint8, ht, hmod]
  exact ⟨rfl, hfl0, hfl255⟩

theorem fft_values_of_range (mags : List ℝ) (hpos : ∀ x ∈ mags, 0 ≤ x) :
    ∀ v ∈ fft_values_of mags, 0 ≤ v ∧ v ≤ 255 := by
  intro v hv
  rw [fft_values_of] at hv
  rcases List.mem_map.mp hv with ⟨y, hy, rfl⟩
  have hy' : y ∈ fft_normalized_of mags := List.mem_of_mem_take hy
  have hb := fft_normalized_mem mags hpos y hy'
  obtain ⟨_, h2, h3⟩ := cast_uint8_of_mem y hb.1 hb.2
  exact ⟨h2, h3⟩

theorem npArgmax_lt_length (l : List ℝ) (hne : l ≠ []) : npArgmax l < l.length := by
  rw [npArgmax]
  apply List.findIdx_lt_length_of_exists
  exact ⟨npMaxR l, npMaxR_mem l hne, by simp⟩

end FeedMyWled

namespace FeedMyWled

/-! ### Helper lemmas: evaluation on silence -/

theorem decode_int16_replicate_zero : ∀ n : ℕ,
    decode_int16 (List.replicate (2 * n) 0) = List.replicate n 0
  | 0 => rfl
  | n + 1 => by
      rw [show 2 * (n + 1) = 2 * n + 1 + 1 by ring, List.replicate_succ,
        List.replicate_succ, decode_int16, decode_int16_replicate_zero n,
        show int16_of 0 0 = 0 by norm_num [int16_of], ← List.replicate_succ]

theorem raw_level_of_replicate_zero (n : ℕ) :
    raw_level_of (List.replicate n (0:ℤ)) = 0 := by
  rw [raw_level_of, List.map_replicate, show np_abs16 0 = 0 by norm_num [np_abs16]]
  simp

theorem npMaxZ_replicate_zero (n : ℕ) : npMaxZ (List.replicate n (0:ℤ)) = 0 := by
  cases n with
  | zero => rfl
  | succ m =>
      rw [List.replicate_succ, npMaxZ]
      exact foldl_max_all_eq _ _ fun x hx => List.eq_of_mem_replicate hx

theorem peak_level_of_replicate_zero (n : ℕ) :
    peak_level_of (List.replicate n (0:ℤ)) = 0 := by
  rw [peak_level_of, List.map_replicate, show np_abs16 0 = 0 by norm_num [np_abs16],
    npMaxZ_replicate_zero, qtrunc]
  norm_num

theorem npMaxR_replicate_zero (n : ℕ) : npMaxR (List.replicate n (0:ℝ)) = 0 := by
  cases n with
  | zero => rfl
  | succ m =>
      rw [List.replicate_succ, npMaxR]
      exact foldl_max_all_eq _ _ fun x hx => List.eq_of_mem_replicate hx

theorem fft_values_of_replicate_zero (m : ℕ) :
    fft_values_of (List.replicate m (0:ℝ)) = List.replicate (min 16 m) 255 := by
  have h1 : np_interp0 0 (0:ℝ) = 255 := by rw [np_interp0, if_pos le_rfl]
  have h2 : cast_uint8 (255:ℝ) = 255 := by
    obtain ⟨he, _, _⟩ := cast_uint8_of_mem 255 (by norm_num) le_rfl
    rw [he]
    norm_num
  rw [fft_values_of, fft_normalized_of, npMaxR_replicate_zero, List.map_replicate,
    h1, List.take_replicate, List.map_replicate, h2]

theorem npArgmax_replicate_zero (m : ℕ) :
    npArgmax (List.replicate (m + 1) (0:ℝ)) = 0 := by
  rw [npArgmax, npMaxR_replicate_zero, List.replicate_succ, List.findIdx_cons]
  rw [decide_eq_true rfl]
  rfl

theorem calculate_fft_silence (n sr : ℕ) (hn : 1 ≤ n) :
    calculate_fft (List.replicate (2 * n) 0) sr =
      some { fft_values := List.replicate (min 16 (n / 2 + 1)) 255
             raw_level := 0
             peak_level := 0
             magnitude_sum := 0
             peak_frequency := 0 } := by
  have hguard : ¬((List.replicate (2 * n) (0:ℕ)).length = 0 ∨
      (List.replicate (2 * n) (0:ℕ)).length % 2 ≠ 0) := by
    rw [List.length_replicate]
    omega
  rw [calculate_fft, if_neg hguard]
  simp only [decode_int16_replicate_zero, rfftMag_zero, List.length_replicate,
    fft_values_of_replicate_zero, raw_level_of_replicate_zero,
    peak_level_of_replicate_zero, npArgmax_replicate_zero, List.sum_replicate,
    smul_zero, Nat.cast_zero, zero_mul]

end FeedMyWled

namespace FeedMyWled

/-! ### Helper lemmas: destructuring calculate_fft -/

theorem calculate_fft_eq_some (chunk : List ℕ) (sr : ℕ)
    (h0 : chunk.length ≠ 0) (h2 : chunk.length % 2 = 0) :
    calculate_fft chunk sr =
      some { fft_values := fft_values_of (rfftMag (decode_int16 chunk))
             raw_level := raw_level_of (decode_int16 chunk)
             peak_level := peak_level_of (decode_int16 chunk)
             magnitude_sum := (rfftMag (decode_int16 chunk)).sum
             peak_frequency := (npArgmax (rfftMag (decode_int16 chunk)) : ℚ) *
               ((sr : ℚ) / ((decode_int16 chunk).length : ℚ)) } := by
  rw [calculate_fft, if_neg (by push_neg; exact ⟨h0, h2⟩)]

theorem calculate_fft_none (chunk : List ℕ) (sr : ℕ)
    (h : chunk.length = 0 ∨ chunk.length % 2 ≠ 0) :
    calculate_fft chunk sr = none := by
  rw [calculate_fft, if_pos h]

theorem calculate_fft_some_elim (chunk : List ℕ) (sr : ℕ) (res : FFTResult)
    (h : calculate_fft chunk sr = some res) :
    chunk.length ≠ 0 ∧ chunk.length % 2 = 0 ∧
    res = { fft_values := fft_values_of (rfftMag (decode_int16 chunk))
            raw_level := raw_level_of (decode_int16 chunk)
            peak_level := peak_level_of (decode_int16 chunk)
            magnitude_sum := (rfftMag (decode_int16 chunk)).sum
            peak_frequency := (npArgmax (rfftMag (decode_int16 chunk)) : ℚ) *
              ((sr : ℚ) / ((decode_int16 chunk).length : ℚ)) } := by
  by_cases h0 : chunk.length = 0 ∨ chunk.length % 2 ≠ 0
  · rw [calculate_fft_none chunk sr h0] at h
    exact absurd h (by simp)
  · push_neg at h0
    rw [calculate_fft_eq_some chunk sr h0.1 h0.2] at h
    injection h with h'
    exact ⟨h0.1, h0.2, h'.symm⟩

end FeedMyWled

namespace FeedMyWled

/-! ### Claims -/

/-- C3 counterexample: with capacity 2 (ring state two zero blocks of
chunk_size = 2) push 3 distinct full blocks.  Exactly 2 blocks remain, the
oldest evicted — but the first chunk_size bytes of the combined buffer are
`[2, 2]`, the OLDEST retained block, not the most recently pushed `[3, 3]`.
This refutes the claim's "first chunk_size bytes … equal the most recently
pushed block" for capacity ≥ 2 (the claim asserts it for every capacity ≥ 1). -/
theorem C3_counterexample :
    List.foldl (deque_append 2) [[0, 0], [0, 0]] [[1, 1], [2, 2], [3, 3]] =
      [[2, 2], [3, 3]] ∧
    (combined [[2, 2], [3, 3]]).take 2 = [2, 2] ∧ ([2, 2] : List ℕ) ≠ [3, 3] := by
  decide

/-- C3 (amended): pushing `capacity+1` full blocks into any ring state leaves
exactly `capacity` blocks with the oldest evicted, and the first `chunk_size`
bytes of the combined buffer equal the OLDEST retained block (`bs.getD 1 []`,
the second of the `capacity+1` pushed blocks) — which is the most recently
pushed block exactly when `capacity = 1`. -/
theorem C3_ring_buffer (cap chunk : ℕ) (buf bs : List (List ℕ))
    (hcap : 1 ≤ cap) (hbuf : buf.length ≤ cap) (hbs : bs.length = cap + 1)
    (hblocks : ∀ b ∈ bs, b.length = chunk) :
    List.foldl (deque_append cap) buf bs = bs.drop 1 ∧
    (List.foldl (deque_append cap) buf bs).length = cap ∧
    (combined (List.foldl (deque_append cap) buf bs)).take chunk = bs.getD 1 [] := by
  have hfold := deque_push_overflow cap buf bs hbuf hbs
  refine ⟨hfold, ?_, ?_⟩
  · rw [hfold, List.length_drop, hbs]
    omega
  · rw [hfold]
    rcases bs with _ | ⟨b0, _ | ⟨b1, rest⟩⟩
    · simp at hbs
    · simp at hbs
      omega
    · rw [List.drop_one, List.tail_cons, List.getD_cons_succ, List.getD_cons_zero]
      exact combined_take_head chunk b1 rest
        (hblocks b1 (List.mem_cons_of_mem b0 (List.mem_cons_self b1 rest)))

/-- C3 witness: the amended theorem applied at capacity 2, a pre-filled ring of
two zero blocks, and three concrete pushed blocks of chunk_size 2. -/
theorem C3_ring_buffer_witness :
    List.foldl (deque_append 2) [[9, 9], [9, 9]] [[1, 1], [2, 2], [3, 3]] =
      [[2, 2], [3, 3]] ∧
    (combined (List.foldl (deque_append 2) [[9, 9], [9, 9]] [[1, 1], [2, 2], [3, 3]])).take 2 =
      [2, 2] := by
  have h := C3_ring_buffer 2 2 [[9, 9], [9, 9]] [[1, 1], [2, 2], [3, 3]]
    (by decide) (by decide) (by decide) (by decide)
  exact ⟨h.1, h.2.2⟩

/-- C4 counterexample: three unicast destinations `[0, 1, 2]`, the send to
address 1 raises.  The raised exception aborts the dispatch loop: only address
0 received the packet, address 2 was never attempted — refuting "a send
failure on one address does not prevent the send attempts to the remaining
addresses" and "failures are logged rather than raised" (the `false` flag is
the exception escaping the loop). -/
theorem C4_counterexample :
    send_unicast [0, 1, 2] (fun a => decide (a ≠ 1)) = ([0], false) ∧
    (2 : ℕ) ∉ (send_unicast [0, 1, 2] (fun a => decide (a ≠ 1))).1 := by
  decide

/-- C4 (amended): the unicast send loop has no exception handling, so the
addresses that receive the packet are exactly the prefix of the configured
list before the first failing send (`takeWhile`), the cycle completes without
an escaping exception exactly when every send succeeds (`all`), and
concretely: if every address before `a` succeeds and the send to `a` raises,
the addresses after `a` are never attempted. -/
theorem C4_unicast_abort :
    (∀ (addrs : List ℕ) (send_ok : ℕ → Bool),
      send_unicast addrs send_ok = (addrs.takeWhile send_ok, addrs.all send_ok)) ∧
    (∀ (pre post : List ℕ) (a : ℕ) (send_ok : ℕ → Bool),
      send_ok a = false → (∀ x ∈ pre, send_ok x = true) →
      send_unicast (pre ++ a :: post) send_ok = (pre, false)) := by
  refine ⟨send_unicast_eq, ?_⟩
  intro pre post a send_ok ha hpre
  induction pre with
  | nil => simp [send_unicast, ha]
  | cons x xs ih =>
      have hx : send_ok x = true := hpre x (List.mem_cons_self x xs)
      have hxs := ih fun y hy => hpre y (List.mem_cons_of_mem x hy)
      simp [send_unicast, hx, hxs]

/-- C4 witness: the amended theorem applied to the concrete dispatch of
`[0, 1, 2]` where the send to address 1 fails: only `[0]` is delivered. -/
theorem C4_unicast_abort_witness :
    send_unicast ([0] ++ 1 :: [2]) (fun a => decide (a ≠ 1)) = ([0], false) :=
  C4_unicast_abort.2 [0] [2] 1 (fun a => decide (a ≠ 1)) (by decide) (by decide)

/-- C7 counterexample: with chunk_size = 2 and the window holding two zero
blocks, a SHORT nonempty read `[5]` (1 byte < chunk_size) IS pushed — Python's
`if audio_data:` tests truthiness, which is true for any nonempty byte string —
so the window changes, refuting "for every cycle in which the stream read
returns fewer than chunk_size bytes … nothing is pushed into the ring buffer
and the window's contents are exactly what they were before the read". -/
theorem C7_counterexample :
    read_push 2 [[0, 0], [0, 0]] [5] = [[0, 0], [5]] ∧
    ([[0, 0], [5]] : List (List ℕ)) ≠ [[0, 0], [0, 0]] := by
  decide

/-- C7 (amended): only an EMPTY read leaves the window untouched; every
nonempty read — full or short — is appended to the ring buffer.  Only the
empty-read case of the original claim holds. -/
theorem C7_read_push (cap : ℕ) (buf : List (List ℕ)) :
    read_push cap buf [] = buf ∧
    ∀ data : List ℕ, data ≠ [] → read_push cap buf data = deque_append cap buf data := by
  constructor
  · rw [read_push, if_neg (by simp)]
  · intro data hd
    rw [read_push, if_pos hd]

/-- C7 witness: the amended theorem at a concrete window, checking both the
empty read (window unchanged) and a short read `[5]` (window re-shaped by the
deque append). -/
theorem C7_read_push_witness :
    read_push 2 [[1, 1], [2, 2]] [] = [[1, 1], [2, 2]] ∧
    read_push 2 [[1, 1], [2, 2]] [5] = deque_append 2 [[1, 1], [2, 2]] [5] :=
  ⟨(C7_read_push 2 [[1, 1], [2, 2]]).1,
    (C7_read_push 2 [[1, 1], [2, 2]]).2 [5] (by decide)⟩

end FeedMyWled

namespace FeedMyWled

/-- C8: the smoothed level obeys `s_i = 0.8*s_{i-1} + 0.2*r_i` with `s_0 = 0`
over the raw levels of successful analysis cycles: (1) the trace has one entry
per raw level; (2) every entry satisfies the recurrence; (3) the literal
sequence `[100, 0, 0]` smooths to `[20.0, 16.0, 12.8]` (exact — the double
computation of lines 152–153 rounds to exactly these values); (4) the stream
loop's emitted smoothed levels are exactly the trace of the raw levels of its
successful cycles, i.e. the state is updated exactly once per successful
cycle and untouched by failed ones. -/
theorem C8_smoothing :
    (∀ (rs : List ℚ) (prev : ℚ), (smooth_trace prev rs).length = rs.length) ∧
    (∀ (rs : List ℚ) (i : ℕ), i < rs.length →
      (smooth_trace 0 rs).getD i 0 =
        smooth_step (if i = 0 then 0 else (smooth_trace 0 rs).getD (i - 1) 0)
          (rs.getD i 0)) ∧
    smooth_trace 0 [100, 0, 0] = [20, 16, 12.8] ∧
    (∀ (cap chunk : ℕ) (prev : ℚ) (buf : List (List ℕ)) (ds : List (List ℕ)),
      run_loop cap chunk prev buf ds = smooth_trace prev (loop_raws cap chunk buf ds)) :=
  ⟨fun rs prev => smooth_trace_length prev rs,
   fun rs i h => smooth_trace_getD rs 0 i h,
   smooth_literal,
   fun cap chunk prev buf ds => run_loop_eq_smooth_trace cap chunk ds prev buf⟩

/-- C8 witness: the recurrence instantiated at the literal raw-level sequence
`[100, 0, 0]` and index 2 (`12.8 = 0.8*16 + 0.2*0`), together with the literal
trace itself. -/
theorem C8_smoothing_witness :
    (smooth_trace 0 [100, 0, 0]).getD 2 0 =
      smooth_step ((smooth_trace 0 [100, 0, 0]).getD 1 0) 0 ∧
    smooth_trace 0 [100, 0, 0] = [20, 16, 12.8] := by
  have h := C8_smoothing.2.1 [100, 0, 0] 2 (by norm_num)
  refine ⟨?_, C8_smoothing.2.2.1⟩
  simpa using h

/-- C1 counterexample: a concrete encoder run (16 in-range bands, all float
fields 0, peak 0) produces a packet of exactly 44 bytes, not 62: the format
`'<6s2B2fBB16B2B2f'` packs 6+2+8+1+1+16+2+8 = 44 bytes (the spec's own layout
table also ends at offset 44). -/
theorem C1_counterexample :
    (create_udp_packet (List.replicate 16 0) 0 0 0 0 0).map List.length = some 44 ∧
    (44 : ℕ) ≠ 62 := by
  have h := create_udp_packet_eq_some (List.replicate 16 0) 0 0 0 0 0
    (by decide) (by decide) (by decide)
    (by norm_num [f32max]) (by norm_num [f32max]) (by norm_num [f32max])
    (by norm_num [f32max])
  have hl := create_udp_packet_length (List.replicate 16 0) 0 0 0 0 0 _ h
  rw [h]
  exact ⟨congrArg some hl, by decide⟩

/-- C1 (amended): for every in-range input the encoded packet is exactly 44
bytes (not 62) and follows the layout of the spec's table: 6-byte header
`'00002'` plus a zero byte, 2 zero gap bytes, float32 raw level at offset 8,
float32 smoothed level at offset 12, uint8 peak level at offset 16, a zero
byte, 16 uint8 band values at offset 18, 2 zero gap bytes, float32 magnitude
sum at offset 36 and float32 peak frequency at offset 40, all little-endian
(each `f32le` field is 4 bytes). -/
theorem C1_packet_layout (bands : List ℤ) (raw s : ℚ) (pk : ℤ) (m fr : ℚ)
    (hlen : bands.length = 16) (hb : ∀ v ∈ bands, 0 ≤ v ∧ v ≤ 255)
    (hpk : 0 ≤ pk ∧ pk ≤ 255)
    (h1 : |raw| < f32max) (h2 : |s| < f32max) (h3 : |m| < f32max) (h4 : |fr| < f32max) :
    create_udp_packet bands raw s pk m fr =
      some ([48, 48, 48, 48, 50, 0] ++ [0, 0] ++ f32le raw ++ f32le s ++ [pk.toNat, 0] ++
        bands.map Int.toNat ++ [0, 0] ++ f32le m ++ f32le fr) ∧
    (∀ pkt : List ℕ, create_udp_packet bands raw s pk m fr = some pkt → pkt.length = 44) :=
  ⟨create_udp_packet_eq_some bands raw s pk m fr hlen hb hpk h1 h2 h3 h4,
   fun pkt h => create_udp_packet_length bands raw s pk m fr pkt h⟩

/-- C1 witness: the layout theorem at bands `[0,…,15]`, peak 200 and zero float
fields (float32 encoding of 0 is four zero bytes), giving the explicit 44-byte
packet. -/
theorem C1_packet_layout_witness :
    create_udp_packet [0, 1, 2, 3, 4, 5, 6, 7, 8, 9, 10, 11, 12, 13, 14, 15]
        0 0 200 0 0 =
      some ([48, 48, 48, 48, 50, 0] ++ [0, 0] ++ f32le 0 ++ f32le 0 ++ [200, 0] ++
        [0, 1, 2, 3, 4, 5, 6, 7, 8, 9, 10, 11, 12, 13, 14, 15] ++ [0, 0] ++
        f32le 0 ++ f32le 0) := by
  have h := C1_packet_layout [0, 1, 2, 3, 4, 5, 6, 7, 8, 9, 10, 11, 12, 13, 14, 15]
    0 0 200 0 0 (by decide) (by decide) (by decide)
    (by norm_num [f32max]) (by norm_num [f32max]) (by norm_num [f32max])
    (by norm_num [f32max])
  rw [h.1]
  rfl

/-- C5 counterexample: a band value of 256 (outside `[0, 255]`) makes the
encoder RAISE (`struct.error`, modelled as `none`) — it does not wrap to byte
0 and succeed, refuting "encoding succeeds, with out-of-range integer inputs
wrapping around per fixed-width (8-bit) integer truncation". -/
theorem C5_counterexample :
    create_udp_packet (256 :: List.replicate 15 0) 0 0 0 0 0 = none :=
  create_udp_packet_none_of_band (256 :: List.replicate 15 0) 0 0 0 0 0
    ⟨256, List.mem_cons_self 256 (List.replicate 15 0), by decide⟩

/-- C5 (amended): the encoder does have a failure path: with 16 bands and float
fields inside the finite float32 range, encoding succeeds IF AND ONLY IF every
band value and the peak level lie in `[0, 255]`; out-of-range integers raise
`struct.error` (no wraparound — when encoding succeeds the band bytes are the
values themselves, per C1's layout theorem). -/
theorem C5_encoder_failure (bands : List ℤ) (raw s : ℚ) (pk : ℤ) (m fr : ℚ)
    (hlen : bands.length = 16)
    (h1 : |raw| < f32max) (h2 : |s| < f32max) (h3 : |m| < f32max) (h4 : |fr| < f32max) :
    (create_udp_packet bands raw s pk m fr).isSome = true ↔
      ((∀ v ∈ bands, 0 ≤ v ∧ v ≤ 255) ∧ (0 ≤ pk ∧ pk ≤ 255)) :=
  create_udp_packet_isSome_iff bands raw s pk m fr hlen h1 h2 h3 h4

/-- C5 witness: the characterization at concrete inputs: all-zero bands encode
(`isSome`), and the same iff instantiated with a 256 band is refuted. -/
theorem C5_encoder_failure_witness :
    (create_udp_packet (List.replicate 16 0) 0 0 0 0 0).isSome = true := by
  have h := C5_encoder_failure (List.replicate 16 0) 0 0 0 0 0 (by decide)
    (by norm_num [f32max]) (by norm_num [f32max]) (by norm_num [f32max])
    (by norm_num [f32max])
  rw [h]
  exact ⟨by decide, by decide⟩

end FeedMyWled

namespace FeedMyWled

/-- C2 counterexample: on the all-zero 8-byte block the analyzer returns band
values `[255, 255, 255]`, not zeros: `np.interp` with the degenerate range
`(0, 0)` maps every bin to the UPPER endpoint 255 (numpy's interpolation
search returns the last index for `x ≥ xp[-1]`), refuting "all 16 band values
= 0 … normalization produces 0 for every bin". -/
theorem C2_counterexample :
    (calculate_fft (List.replicate 8 0) 44100).map FFTResult.fft_values =
      some [255, 255, 255] ∧ ([255, 255, 255] : List ℤ) ≠ [0, 0, 0] := by
  have h := calculate_fft_silence 4 44100 (by norm_num)
  norm_num at h
  rw [h]
  refine ⟨?_, by decide⟩
  rw [Option.map_some']
  decide

/-- C2 (amended): for every all-zero block (`2*n` bytes, `n ≥ 1` samples) the
analyzer succeeds with `raw_level = 0`, `peak_level = 0`, `magnitude_sum = 0`
and `peak_frequency = 0` — but every produced band value is 255, not 0: with
`max(magnitude) = 0` the `np.interp` normalization maps each zero bin to the
top of the output range instead of producing zeros. -/
theorem C2_silence_behavior (n sr : ℕ) (hn : 1 ≤ n) :
    calculate_fft (List.replicate (2 * n) 0) sr =
      some { fft_values := List.replicate (min 16 (n / 2 + 1)) 255
             raw_level := 0
             peak_level := 0
             magnitude_sum := 0
             peak_frequency := 0 } ∧
    ∀ res : FFTResult, calculate_fft (List.replicate (2 * n) 0) sr = some res →
      res.raw_level = 0 ∧ res.peak_level = 0 ∧ res.magnitude_sum = 0 ∧
      res.peak_frequency = 0 ∧ res.fft_values ≠ [] ∧ ∀ v ∈ res.fft_values, v = 255 := by
  have h := calculate_fft_silence n sr hn
  refine ⟨h, ?_⟩
  intro res hres
  rw [h] at hres
  injection hres with h'
  rw [← h']
  refine ⟨rfl, rfl, rfl, rfl, ?_, ?_⟩
  · intro hc
    have hlen := congrArg List.length hc
    simp at hlen
  · intro v hv
    exact List.eq_of_mem_replicate hv

/-- C2 witness: the amended theorem at `n = 1`, sample rate 44100. -/
theorem C2_silence_behavior_witness :
    calculate_fft (List.replicate (2 * 1) 0) 44100 =
      some { fft_values := List.replicate (min 16 (1 / 2 + 1)) 255
             raw_level := 0
             peak_level := 0
             magnitude_sum := 0
             peak_frequency := 0 } :=
  (C2_silence_behavior 1 44100 (by norm_num)).1

/-- C6 counterexample: for the 2-byte block holding the single sample 101 the
source computes `int((101/32767)*255) = int(0.7859…) = 0` (truncation), while
the claimed formula `round(max(abs)/32767*255)` clamped gives 1 — `int()`
truncates toward zero, it does not round. -/
theorem C6_counterexample :
    (calculate_fft [101, 0] 44100).map FFTResult.peak_level = some 0 ∧
    peak_level_claimed (decode_int16 [101, 0]) = 1 ∧ (0 : ℤ) ≠ 1 := by
  have hdec : decode_int16 [101, 0] = [101] := by decide
  refine ⟨?_, ?_, by decide⟩
  · rw [calculate_fft_eq_some [101, 0] 44100 (by decide) (by decide), Option.map_some']
    show some (peak_level_of (decode_int16 [101, 0])) = some 0
    rw [hdec, peak_level_of]
    have hmap : ([101] : List ℤ).map np_abs16 = [101] := by norm_num [np_abs16]
    rw [hmap, show npMaxZ [101] = 101 from rfl, qtrunc, if_neg (by norm_num)]
    rw [show ⌊((101 : ℤ) : ℚ) / 32767 * 255⌋ = 0 by rw [Int.floor_eq_iff]; norm_num]
  · rw [hdec, peak_level_claimed]
    have hmap : ([101] : List ℤ).map (fun s => |s|) = [101] := by norm_num
    rw [hmap, show npMaxZ [101] = 101 from rfl,
      show round (((101 : ℤ) : ℚ) / 32767 * 255) = 1 by
        rw [round_eq, Int.floor_eq_iff]; norm_num]
    decide

/-- C6 (amended): the analyzer's peak level is
`int((max(np.abs(samples))/32767)*255)` — truncation toward zero of the exact
value, with numpy's WRAPPING int16 absolute value and no clamping.  It lies in
`[0, 255]` whenever at least one sample differs from −32768; for a block whose
samples are all −32768 the wrapped maximum is −32768 and the peak level is
−255 (outside the unsigned 8-bit range, contradicting the claim's "always in
[0, 255] including for blocks containing -32768"). -/
theorem C6_peak_level (chunk : List ℕ) (sr : ℕ) (res : FFTResult)
    (h : calculate_fft chunk sr = some res) :
    res.peak_level = peak_level_of (decode_int16 chunk) ∧
    ((∃ s ∈ decode_int16 chunk, s ≠ -32768) →
      0 ≤ res.peak_level ∧ res.peak_level ≤ 255) ∧
    ((decode_int16 chunk ≠ [] ∧ ∀ s ∈ decode_int16 chunk, s = -32768) →
      res.peak_level = -255) := by
  obtain ⟨h0, h2, hres⟩ := calculate_fft_some_elim chunk sr res h
  subst hres
  refine ⟨rfl, ?_, ?_⟩
  · intro hex
    have hne : decode_int16 chunk ≠ [] := by
      rcases hex with ⟨s, hs, _⟩
      exact List.ne_nil_of_mem hs
    exact peak_level_of_range (decode_int16 chunk) hne (decode_int16_range chunk) hex
  · intro hall
    exact peak_level_of_all_min (decode_int16 chunk) hall.1 hall.2

/-- C6 witness: the amended theorem applied to the silence block of one sample
(peak level 0, inside the range guaranteed by the second part). -/
theorem C6_peak_level_witness :
    ({ fft_values := List.replicate (min 16 (1 / 2 + 1)) 255
       raw_level := 0
       peak_level := 0
       magnitude_sum := 0
       peak_frequency := 0 } : FFTResult).peak_level =
      peak_level_of (decode_int16 (List.replicate (2 * 1) 0)) :=
  (C6_peak_level (List.replicate (2 * 1) 0) 44100 _
    (calculate_fft_silence 1 44100 (by norm_num))).1

/-- C9: every band value a successful analyzer run produces lies in `[0, 255]`:
the normalized magnitudes already lie in `[0, 255]` before the uint8 cast
(the magnitudes are nonnegative and at most their maximum), the cast is plain
truncation there, and consequently the encoder's per-band `struct.pack` range
checks succeed on analyzer-produced bands (given 16 bands, an in-range peak
level and float fields inside the finite float32 range). -/
theorem C9_bands_in_range (chunk : List ℕ) (sr : ℕ) (res : FFTResult)
    (h : calculate_fft chunk sr = some res) :
    (∀ y ∈ fft_normalized_of (rfftMag (decode_int16 chunk)), 0 ≤ y ∧ y ≤ 255) ∧
    (∀ v ∈ res.fft_values, 0 ≤ v ∧ v ≤ 255) ∧
    (∀ (raw s m fr : ℚ) (pk : ℤ), res.fft_values.length = 16 →
      0 ≤ pk → pk ≤ 255 → |raw| < f32max → |s| < f32max → |m| < f32max → |fr| < f32max →
      (create_udp_packet res.fft_values raw s pk m fr).isSome = true) := by
  obtain ⟨h0, h2, hres⟩ := calculate_fft_some_elim chunk sr res h
  subst hres
  have hpos := rfftMag_nonneg (decode_int16 chunk)
  refine ⟨fft_normalized_mem _ hpos, fft_values_of_range _ hpos, ?_⟩
  intro raw s m fr pk hlen hpk0 hpk1 hf1 hf2 hf3 hf4
  rw [create_udp_packet_isSome_iff _ raw s pk m fr hlen hf1 hf2 hf3 hf4]
  exact ⟨fft_values_of_range _ hpos, hpk0, hpk1⟩

/-- C9 witness: the theorem applied to a 64-byte silence block, whose 17-bin
spectrum yields exactly 16 bands (all 255, in range); with zero float fields
and peak 0 the encoder succeeds on them. -/
theorem C9_bands_in_range_witness :
    (create_udp_packet
      ({ fft_values := List.replicate (min 16 (32 / 2 + 1)) 255, raw_level := 0,
         peak_level := 0, magnitude_sum := 0, peak_frequency := 0 } :
        FFTResult).fft_values
      0 0 0 0 0).isSome = true := by
  have h := C9_bands_in_range (List.replicate (2 * 32) 0) 44100 _
    (calculate_fft_silence 32 44100 (by norm_num))
  exact h.2.2 0 0 0 0 0 (by norm_num) (by decide) (by decide)
    (by norm_num [f32max]) (by norm_num [f32max]) (by norm_num [f32max])
    (by norm_num [f32max])

/-- C10: for every successful analysis the argmax index over the rfft
magnitude spectrum is at most `⌊N/2⌋` (the spectrum has `N/2 + 1` bins), so
`peak_frequency = index * sample_rate / N` is at most the Nyquist frequency
`sample_rate / 2`. -/
theorem C10_nyquist (chunk : List ℕ) (sr : ℕ) (res : FFTResult)
    (h : calculate_fft chunk sr = some res) :
    npArgmax (rfftMag (decode_int16 chunk)) ≤ (decode_int16 chunk).length / 2 ∧
    res.peak_frequency ≤ (sr : ℚ) / 2 := by
  obtain ⟨h0, h2, hres⟩ := calculate_fft_some_elim chunk sr res h
  subst hres
  have hn : 1 ≤ (decode_int16 chunk).length := by
    rw [decode_int16_length]
    omega
  have hmags_len : (rfftMag (decode_int16 chunk)).length =
      (decode_int16 chunk).length / 2 + 1 := rfftMag_length _
  have hne : rfftMag (decode_int16 chunk) ≠ [] := by
    intro hc
    rw [hc] at hmags_len
    simp at hmags_len
  have hidx : npArgmax (rfftMag (decode_int16 chunk)) <
      (decode_int16 chunk).length / 2 + 1 := by
    rw [← hmags_len]
    exact npArgmax_lt_length _ hne
  have hidx2 : npArgmax (rfftMag (decode_int16 chunk)) ≤
      (decode_int16 chunk).length / 2 := by omega
  refine ⟨hidx2, ?_⟩
  show (npArgmax (rfftMag (decode_int16 chunk)) : ℚ) *
    ((sr : ℚ) / ((decode_int16 chunk).length : ℚ)) ≤ (sr : ℚ) / 2
  have hcast : (npArgmax (rfftMag (decode_int16 chunk)) : ℚ) ≤
      ((decode_int16 chunk).length : ℚ) / 2 := by
    calc (npArgmax (rfftMag (decode_int16 chunk)) : ℚ)
        ≤ (((decode_int16 chunk).length / 2 : ℕ) : ℚ) := by exact_mod_cast hidx2
      _ ≤ ((decode_int16 chunk).length : ℚ) / 2 := by exact_mod_cast Nat.cast_div_le
  have hnq : (0 : ℚ) < ((decode_int16 chunk).length : ℚ) := by exact_mod_cast hn
  have hsr : (0 : ℚ) ≤ (sr : ℚ) / ((decode_int16 chunk).length : ℚ) := by positivity
  calc (npArgmax (rfftMag (decode_int16 chunk)) : ℚ) *
      ((sr : ℚ) / ((decode_int16 chunk).length : ℚ))
      ≤ (((decode_int16 chunk).length : ℚ) / 2) *
        ((sr : ℚ) / ((decode_int16 chunk).length : ℚ)) :=
        mul_le_mul_of_nonneg_right hcast hsr
    _ = (sr : ℚ) / 2 := by
        field_simp
        ring

/-- C10 witness: the theorem applied to the one-sample silence block at sample
rate 44100: its peak frequency 0 is at most 22050. -/
theorem C10_nyquist_witness :
    ({ fft_values := List.replicate (min 16 (1 / 2 + 1)) 255
       raw_level := 0
       peak_level := 0
       magnitude_sum := 0
       peak_frequency := 0 } : FFTResult).peak_frequency ≤ (44100 : ℚ) / 2 :=
  (C10_nyquist (List.replicate (2 * 1) 0) 44100 _
    (calculate_fft_silence 1 44100 (by norm_num))).2

end FeedMyWled
